import Mathlib

/-!
Verification development for the qrdrop request-serving core.

The definitions below are shallow embeddings of the TypeScript sources:
`src/security.ts` (path validation, range parsing, IP allow-listing),
the rate limiter, the upload handler and the server fetch handler.
JavaScript strings are modelled as `List Char` (with `String` wrappers),
JavaScript numbers used as integers are modelled as `Int`/`Nat`, and
fallible operations (exceptions, filesystem errors) are modelled with
`Option`.
-/

namespace Qrdrop

/-! ## JavaScript string primitives -/

/-- Model of the whitespace class used by JavaScript `String.prototype.trim`
and `parseInt` (restricted to the ASCII whitespace characters, the only ones
that occur in HTTP headers). -/
def isJsSpace (c : Char) : Bool :=
  c == ' ' || c == '\t' || c == '\n' || c == '\r' || c == '\x0b' || c == '\x0c'

/-- Model of JavaScript `String.prototype.trim`. -/
def jsTrim (s : List Char) : List Char :=
  ((s.dropWhile isJsSpace).reverse.dropWhile isJsSpace).reverse

/-- Auxiliary for `splitOnChar`: accumulates the current field (reversed). -/
def splitOnCharAux (sep : Char) : List Char → List Char → List (List Char)
  | [], acc => [acc.reverse]
  | c :: rest, acc =>
    if c == sep then acc.reverse :: splitOnCharAux sep rest []
    else splitOnCharAux sep rest (c :: acc)

/-- Model of JavaScript `String.prototype.split` with a one-character
separator: `"".split(",") = [""]`, `"a,".split(",") = ["a", ""]`. -/
def splitOnChar (sep : Char) (s : List Char) : List (List Char) :=
  splitOnCharAux sep s []

/-- Model of JavaScript `parseInt(s, 10)`: skip leading whitespace, read an
optional sign and then a maximal run of decimal digits; `NaN` (here `none`)
when no digit is found.  Trailing junk is ignored, exactly as in JS. -/
def jsParseInt (s : List Char) : Option Int :=
  let t := s.dropWhile isJsSpace
  let signAndRest : Bool × List Char :=
    match t with
    | '-' :: r => (true, r)
    | '+' :: r => (false, r)
    | _ => (false, t)
  let ds := signAndRest.2.takeWhile Char.isDigit
  if ds.isEmpty then none
  else
    let v : Nat := ds.foldl (fun acc c => acc * 10 + (c.toNat - 48)) 0
    some (if signAndRest.1 then -(v : Int) else (v : Int))

/-- Model of JavaScript `String.prototype.startsWith`. -/
def strStartsWith (s p : String) : Bool := p.data.isPrefixOf s.data

/-- Model of JavaScript `String.prototype.includes` with a one-character
needle. -/
def strContains (s : String) (c : Char) : Bool := s.data.contains c

/-- Model of JavaScript `String.prototype.indexOf` for a one-character
needle, `none` standing for the JS result `-1`. -/
def idxOf (c : Char) : List Char → Option Nat
  | [] => none
  | a :: rest => if a == c then some 0 else (idxOf c rest).map (· + 1)

/-! ## Range parser (`parseRangeHeader`, src/security.ts) -/

/-- Constant `MAX_RANGES` from src/constants.ts. -/
def MAX_RANGES : Nat := 5

/-- One parsed byte range (`interface Range` in src/security.ts).  The
source field `end` is a Lean keyword, rendered here as `rend`. -/
structure ByteRange where
  start : Int
  rend : Int
deriving DecidableEq, Repr

/-- The raw `(start, end)` pair computed for one range specification before
the final clamping step, `none` when the specification is malformed and the
loop does `continue`.  Mirrors the three branches of the loop body of
`parseRangeHeader`. -/
def rawRangeSpec (fileSize : Int) (trimmed : List Char) : Option (Int × Int) :=
  match idxOf '-' trimmed with
  | none => none
  | some dashIndex =>
    let startStr := trimmed.take dashIndex
    let endStr := trimmed.drop (dashIndex + 1)
    if startStr.isEmpty then
      -- Suffix range: -500 means last 500 bytes
      match jsParseInt endStr with
      | none => none
      | some suffix =>
        if suffix ≤ 0 then none
        else some (max 0 (fileSize - suffix), fileSize - 1)
    else if endStr.isEmpty then
      -- Prefix range: 500- means from byte 500 to end
      match jsParseInt startStr with
      | none => none
      | some start =>
        if start < 0 then none else some (start, fileSize - 1)
    else
      -- Full range: 500-999
      match jsParseInt startStr, jsParseInt endStr with
      | some start, some e =>
        if start < 0 ∨ e < start ∨ fileSize ≤ e then none else some (start, e)
      | _, _ => none

/-- The final clamping step of the loop body: "Ensure range is within file
bounds". -/
def clampRange (fileSize : Int) (p : Int × Int) : ByteRange :=
  let s2 := max 0 (min p.1 (fileSize - 1))
  ⟨s2, max s2 (min p.2 (fileSize - 1))⟩

/-- Processing of one comma-separated range specification: trim, locate the
dash, compute the raw bounds, clamp. -/
def parseRangeSpec (fileSize : Int) (part : List Char) : Option ByteRange :=
  (rawRangeSpec fileSize (jsTrim part)).map (clampRange fileSize)

/-- Function `parseRangeHeader` from src/security.ts.  `rangeHeader : Option String`
models the `string | null` argument; the result `none` models the JS
`null`. -/
def parseRangeHeader (rangeHeader : Option String) (fileSize : Nat) :
    Option (List ByteRange) :=
  match rangeHeader with
  | none => none
  | some h =>
    if strStartsWith h "bytes=" = false then none
    else
      let rangeParts := splitOnChar ',' (h.data.drop 6)
      if MAX_RANGES < rangeParts.length then none
      else
        let ranges := rangeParts.filterMap (parseRangeSpec (fileSize : Int))
        if ranges.isEmpty then none else some ranges

/-! ## Percent decoding (`decodeURIComponent` model and `recursiveDecode`) -/

/-- Value of a hexadecimal digit. -/
def hexVal (c : Char) : Option Nat :=
  if c.isDigit then some (c.toNat - 48)
  else if 'a' ≤ c ∧ c ≤ 'f' then some (c.toNat - 87)
  else if 'A' ≤ c ∧ c ≤ 'F' then some (c.toNat - 55)
  else none

/-- Read one `%HH` escape from the front of the string, returning the byte
value and the remaining characters. -/
def readPct : List Char → Option (Nat × List Char)
  | '%' :: h1 :: h2 :: rest =>
    match hexVal h1, hexVal h2 with
    | some x, some y => some (16 * x + y, rest)
    | _, _ => none
  | _ => none

/-- UTF-8 continuation byte test. -/
def isCont (b : Nat) : Bool := 128 ≤ b && b ≤ 191

/-- Decode one escape sequence (one code point, possibly spanning several
`%HH` escapes) from the front of the string, as the ECMAScript `Decode`
abstract operation does for `decodeURIComponent`: strict UTF-8, rejecting
truncated escapes, stray continuation bytes, overlong encodings, surrogate
code points and values above U+10FFFF.  `none` models a thrown `URIError`. -/
def decodeEscape (s : List Char) : Option (Char × List Char) :=
  match readPct s with
  | none => none
  | some (b, r1) =>
    if b < 128 then some (Char.ofNat b, r1)
    else if 194 ≤ b ∧ b ≤ 223 then
      match readPct r1 with
      | none => none
      | some (b1, r2) =>
        if isCont b1 then some (Char.ofNat ((b - 192) * 64 + (b1 - 128)), r2)
        else none
    else if 224 ≤ b ∧ b ≤ 239 then
      match readPct r1 with
      | none => none
      | some (b1, r2) =>
        match readPct r2 with
        | none => none
        | some (b2, r3) =>
          if isCont b1 ∧ isCont b2 then
            let cp := (b - 224) * 4096 + (b1 - 128) * 64 + (b2 - 128)
            if 2048 ≤ cp ∧ ¬(55296 ≤ cp ∧ cp ≤ 57343) then
              some (Char.ofNat cp, r3)
            else none
          else none
    else if 240 ≤ b ∧ b ≤ 244 then
      match readPct r1 with
      | none => none
      | some (b1, r2) =>
        match readPct r2 with
        | none => none
        | some (b2, r3) =>
          match readPct r3 with
          | none => none
          | some (b3, r4) =>
            if isCont b1 ∧ isCont b2 ∧ isCont b3 then
              let cp := (b - 240) * 262144 + (b1 - 128) * 4096 +
                (b2 - 128) * 64 + (b3 - 128)
              if 65536 ≤ cp ∧ cp ≤ 1114111 then some (Char.ofNat cp, r4)
              else none
            else none
    else none

/-- One full pass of `decodeURIComponent` over the string: every `%`-escape
is decoded, every other character is copied.  The fuel argument only serves
to make the recursion structural; `decodeChars` below instantiates it with
a provably sufficient amount (each step consumes at least one character). -/
def decodeCharsFuel : Nat → List Char → Option (List Char)
  | _, [] => some []
  | 0, _ :: _ => none
  | fuel + 1, c :: rest =>
    if c = '%' then
      match decodeEscape (c :: rest) with
      | none => none
      | some (ch, r) =>
        match decodeCharsFuel fuel r with
        | none => none
        | some tail => some (ch :: tail)
    else
      match decodeCharsFuel fuel rest with
      | none => none
      | some tail => some (c :: tail)

/-- Model of `decodeURIComponent`; `none` models a thrown `URIError`. -/
def decodeChars (s : List Char) : Option (List Char) :=
  decodeCharsFuel (s.length + 1) s

/-- The loop of `recursiveDecode` (src/security.ts): keep decoding until no
more changes occur; if a decoding step fails, return the last valid decode.
The fuel argument makes the recursion structural; each productive step
strictly shrinks the string, so `s.length + 1` fuel is always enough. -/
def decodeLoopFuel : Nat → List Char → List Char
  | 0, dec => dec
  | fuel + 1, dec =>
    match decodeChars dec with
    | none => dec
    | some d2 => if d2 = dec then dec else decodeLoopFuel fuel d2

/-- Function `recursiveDecode` from src/security.ts.  The first call to
`decodeURIComponent` sits outside the `try`, so its failure propagates as
an exception, modelled by `none`; failures inside the loop fall back to the
last successful decode. -/
def recursiveDecode (str : String) : Option String :=
  match decodeChars str.data with
  | none => none
  | some d0 => some ⟨decodeLoopFuel (d0.length + 1) d0⟩

/-! ## Path normalization (models of Node `path.posix`) -/

/-- Stack-based processing of `.`/`..` segments, a model of Node's internal
`normalizeString`.  `allowAboveRoot` is true for relative paths (leading
`..` segments are kept) and false for absolute ones (they are dropped).
`acc` is the stack of kept segments, most recent first. -/
def normSegs (allowAboveRoot : Bool) : List (List Char) → List (List Char) →
    List (List Char)
  | [], acc => acc.reverse
  | s :: rest, acc =>
    if s = [] ∨ s = ['.'] then normSegs allowAboveRoot rest acc
    else if s = ['.', '.'] then
      match acc with
      | [] =>
        if allowAboveRoot then normSegs allowAboveRoot rest [s]
        else normSegs allowAboveRoot rest []
      | a :: acc2 =>
        if a = ['.', '.'] then normSegs allowAboveRoot rest (s :: acc)
        else normSegs allowAboveRoot rest acc2
    else normSegs allowAboveRoot rest (s :: acc)

/-- Model of Node `path.posix.normalize`. -/
def normalize (p : String) : String :=
  match p.data with
  | [] => "."
  | c :: cs =>
    let isAbs := c = '/'
    let hasTrail := (c :: cs).getLast? = some '/'
    let segs := normSegs (!isAbs) (splitOnChar '/' (c :: cs)) []
    let core := List.intercalate ['/'] segs
    if core = [] then
      if isAbs then "/" else if hasTrail then "./" else "."
    else
      ⟨(if isAbs then '/' :: core else core) ++ (if hasTrail then ['/'] else [])⟩

/-- Normalization step of Node `path.posix.resolve`: the joined path is
absolute; `.`/`..` are resolved and no trailing separator is kept. -/
def resolveAbs (joined : List Char) : String :=
  ⟨'/' :: List.intercalate ['/'] (normSegs false (splitOnChar '/' joined) [])⟩

/-- Model of Node `path.posix.resolve baseDirectory p` for the two-argument
form used in src/security.ts.  The process working directory (used by Node
only when every argument is relative, which qrdrop never does: the base
directory is always an absolute path) is modelled as `/`. -/
def resolve (base p : String) : String :=
  if p.data.head? = some '/' then resolveAbs p.data
  else if base.data.head? = some '/' then resolveAbs (base.data ++ '/' :: p.data)
  else resolveAbs ('/' :: (base.data ++ '/' :: p.data))

/-! ## `validatePath` and `isSymlink` (src/security.ts) -/

/-- The filesystem interface used by `validatePath`: `realpath` returns the
canonical path (symlinks resolved), or `none` when the path does not exist
or cannot be accessed (a rejected promise in the source, caught by the
surrounding `try`). -/
structure FsOracle where
  realpath : String → Option String

/-- Posix path separator (`sep` from Node `path`). -/
def sep : String := "/"

/-- Function `validatePath` from src/security.ts.  The surrounding `try`/`catch`
returning `null` on any error is modelled by propagating `none`: a thrown
`URIError` from the first decode and any filesystem error both yield
`none`. -/
def validatePath (fs : FsOracle) (requestedPath baseDirectory : String) :
    Option String :=
  match recursiveDecode requestedPath with
  | none => none
  | some decoded =>
    let normalized := normalize decoded
    let resolved := resolve baseDirectory normalized
    match fs.realpath resolved with
    | none => none
    | some canonical =>
      match fs.realpath baseDirectory with
      | none => none
      | some baseCanonical =>
        if strStartsWith canonical (baseCanonical ++ sep) = false ∧
            canonical ≠ baseCanonical then none
        else some canonical

/-- Result of `lstat` as far as `isSymlink` consumes it. -/
structure FileStats where
  isSymbolicLink : Bool

/-- The filesystem interface used by `isSymlink`: `lstat` returns the stats
of the path itself, or `none` when the call fails (missing file, missing
permission — a rejected promise in the source). -/
structure LstatFs where
  lstat : String → Option FileStats

/-- Function `isSymlink` from src/security.ts: a path whose `lstat` fails is assumed
not to be a symlink. -/
def isSymlink (fs : LstatFs) (filePath : String) : Bool :=
  match fs.lstat filePath with
  | none => false
  | some stats => stats.isSymbolicLink

/-! ## Rate limiter (src/rate-limit.ts) -/

/-- Structure `RateLimitEntry` from src/rate-limit.ts. -/
structure RateLimitEntry where
  count : Nat
  resetTime : Int
deriving DecidableEq, Repr

/-- The `Map<string, RateLimitEntry>` backing the limiter, modelled as an
association list (later bindings replace earlier ones in place). -/
def RateMap := List (String × RateLimitEntry)

/-- Model of `Map.get`. -/
def lookupEntry : List (String × RateLimitEntry) → String →
    Option RateLimitEntry
  | [], _ => none
  | (k, e) :: rest, id => if k = id then some e else lookupEntry rest id

/-- Model of `Map.set`: replace the binding in place, or append a new one. -/
def setEntry : List (String × RateLimitEntry) → String → RateLimitEntry →
    List (String × RateLimitEntry)
  | [], id, e => [(id, e)]
  | (k, old) :: rest, id, e =>
    if k = id then (k, e) :: rest else (k, old) :: setEntry rest id e

/-- Method `RateLimiter.check` from src/rate-limit.ts, with the current time
`now` (`Date.now()`) passed explicitly.  Returns the decision together
with the updated map. -/
def rateCheck (maxRequests : Nat) (windowMs : Int)
    (requests : List (String × RateLimitEntry)) (now : Int)
    (identifier : String) : Bool × List (String × RateLimitEntry) :=
  match lookupEntry requests identifier with
  | none => (true, setEntry requests identifier ⟨1, now + windowMs⟩)
  | some entry =>
    if entry.resetTime < now then
      (true, setEntry requests identifier ⟨1, now + windowMs⟩)
    else if maxRequests ≤ entry.count then (false, requests)
    else (true, setEntry requests identifier ⟨entry.count + 1, entry.resetTime⟩)

/-- A sequence of checks from the same key at the given times, returning
the list of decisions (threading the map through). -/
def rateCheckSeq (maxRequests : Nat) (windowMs : Int) :
    List Int → List (String × RateLimitEntry) → String → List Bool
  | [], _, _ => []
  | t :: ts, requests, id =>
    let r := rateCheck maxRequests windowMs requests t id
    r.1 :: rateCheckSeq maxRequests windowMs ts r.2 id

/-! ## IP allow-list (src/security.ts) -/

/-- Function `ipv4ToInt` from src/security.ts: dotted-quad to unsigned 32-bit
integer.  The JS `(result << 8) | num` runs on signed 32-bit values, but
after the final `>>> 0` the result equals the plain base-256 value, which
is what is computed here. -/
def ipv4ToInt (ip : String) : Option Nat :=
  let parts := splitOnChar '.' ip.data
  if parts.length ≠ 4 then none
  else
    parts.foldl
      (fun acc part =>
        match acc with
        | none => none
        | some r =>
          match jsParseInt part with
          | none => none
          | some num =>
            if num < 0 ∨ 255 < num then none
            else some (r * 256 + num.toNat))
      (some 0)

/-- The subnet mask for a prefix length: `prefix === 0 ? 0 :
(~0 << (32 - prefix)) >>> 0`. -/
def cidrMask (pfx : Nat) : Nat :=
  if pfx = 0 then 0 else 4294967296 - 2 ^ (32 - pfx)

/-- Function `matchesCIDR` from src/security.ts. -/
def matchesCIDR (ip cidr : String) : Bool :=
  match splitOnChar '/' cidr.data with
  | [network, prefixStr] =>
    if network = [] ∨ prefixStr = [] then false
    else
      match jsParseInt prefixStr with
      | none => false
      | some pfx =>
        if pfx < 0 ∨ 32 < pfx then false
        else
          match ipv4ToInt ip, ipv4ToInt ⟨network⟩ with
          | some ipInt, some networkInt =>
            let mask := cidrMask pfx.toNat
            ipInt.land mask == networkInt.land mask
          | _, _ => false
  | _ => false

/-- The wildcard matcher: the source escapes the regex metacharacters of
the allow-list entry and replaces every `*` by `\d{1,3}`, then tests the
whole client IP against the anchored pattern.  Semantically the pattern
matches iff the entry matches literally with each `*` standing for one to
three decimal digits, which is what this executable matcher decides
(regex alternatives explored by backtracking become the three `k`
choices). -/
def wildcardMatch : List Char → List Char → Bool
  | [], s => s.isEmpty
  | p :: ps, s =>
    if p = '*' then
      (decide (1 ≤ s.length) && (s.take 1).all Char.isDigit &&
        wildcardMatch ps (s.drop 1)) ||
      (decide (2 ≤ s.length) && (s.take 2).all Char.isDigit &&
        wildcardMatch ps (s.drop 2)) ||
      (decide (3 ≤ s.length) && (s.take 3).all Char.isDigit &&
        wildcardMatch ps (s.drop 3))
    else
      match s with
      | [] => false
      | c :: cs => p == c && wildcardMatch ps cs

/-- The body of the `for` loop of `isIPAllowed` for one allow-list entry:
exact match first; entries containing `/` are tried as CIDR only (the
`continue` skips the wildcard branch); remaining entries containing `*`
are tried as wildcards. -/
def entryAllows (clientIP allowed : String) : Bool :=
  if allowed = clientIP then true
  else if strContains allowed '/' then matchesCIDR clientIP allowed
  else if strContains allowed '*' then wildcardMatch allowed.data clientIP.data
  else false

/-- Function `isIPAllowed` from src/security.ts. -/
def isIPAllowed (clientIP : String) (allowedIPs : List String) : Bool :=
  if allowedIPs.isEmpty then true
  else allowedIPs.any (entryAllows clientIP)

/-! ## Upload handler (src/upload.ts, the refactored module wired into the
server: its results carry `filenames`/`totalSize`/`fileCount`, which is
what src/server.ts consumes) -/

/-- Function `extractFileExtension` from src/upload.ts: the extension starts after
the last dot, except that a dot in first position (a dotfile such as
`.gitignore`) does not start an extension.  Returns `(ext, baseName)`. -/
def extractFileExtension (filename : String) : String × String :=
  if strContains filename '.' then
    match idxOf '.' filename.data.reverse with
    | none => ("", filename)
    | some revIdx =>
      let lastDotIndex := filename.data.length - 1 - revIdx
      if 0 < lastDotIndex then
        (⟨filename.data.drop (lastDotIndex + 1)⟩, ⟨filename.data.take lastDotIndex⟩)
      else ("", filename)
  else ("", filename)

/-- The collision name ``ext ? `${baseName}_${counter}.${ext}` :
`${baseName}_${counter}` `` built by `findUniqueFilePath` and
`writeFileWithRetry` from the parts returned by `extractFileExtension`. -/
def collisionName (filename : String) (counter : Nat) : String :=
  let p := extractFileExtension filename
  if p.1 ≠ "" then p.2 ++ "_" ++ toString counter ++ "." ++ p.1
  else p.2 ++ "_" ++ toString counter

/-- The per-file outcome produced by `processSingleFile`. -/
structure FileResult where
  success : Bool
  filename : Option String
  size : Option Nat
  error : Option String
deriving DecidableEq, Repr

/-- An uploaded file part, reduced to what the aggregation logic of
`handleUpload` reads from it directly (its `name`); everything
`processSingleFile` does with the file's contents and the filesystem is
abstracted into the `process` function below. -/
structure UploadFile where
  name : String
deriving DecidableEq, Repr

/-- Interface `UploadResult` from src/types/files.ts. -/
structure UploadResult where
  success : Bool
  filename : Option String := none
  filenames : Option (List String) := none
  error : Option String := none
  size : Option Nat := none
  totalSize : Option Nat := none
  fileCount : Option Nat := none
deriving DecidableEq, Repr

/-- JavaScript truthiness of an optional string (`undefined` and `""` are
falsy). -/
def strTruthy : Option String → Bool
  | none => false
  | some s => !s.isEmpty

/-- The successful filenames collected by the multi-file loop of
`handleUpload` (`if (result.success && result.filename)`). -/
def successfulFiles (process : UploadFile → FileResult)
    (files : List UploadFile) : List String :=
  files.filterMap fun f =>
    let r := process f
    if r.success && strTruthy r.filename then r.filename else none

/-- The running `totalSize` accumulated by the same loop
(`totalSize += result.size || 0`). -/
def totalUploadSize (process : UploadFile → FileResult)
    (files : List UploadFile) : Nat :=
  (files.filterMap fun f =>
    let r := process f
    if r.success && strTruthy r.filename then some (r.size.getD 0) else none).sum

/-- The per-file error strings collected by the loop
(`else if (result.error) errors.push(`${file.name}: ${result.error}`)`). -/
def uploadErrors (process : UploadFile → FileResult)
    (files : List UploadFile) : List String :=
  files.filterMap fun f =>
    let r := process f
    if r.success && strTruthy r.filename then none
    else if strTruthy r.error then some (f.name ++ ": " ++ r.error.getD "")
    else none

/-- Function `handleUpload` from src/upload.ts, with the filesystem-dependent
per-file processing (`processSingleFile`) abstracted as `process`.  The
three outcomes mirror the source: no file part, a single file part
(returned as-is for backward compatibility), or several parts aggregated:
all failed → `success:false` with the joined errors; otherwise
`success:true` with the successful names — the collected per-file errors
are *not* included in this branch. -/
def handleUpload (process : UploadFile → FileResult)
    (files : List UploadFile) : UploadResult :=
  match files with
  | [] => { success := false, error := some "No file provided" }
  | [f] =>
    let r := process f
    { success := r.success, filename := r.filename, size := r.size,
      error := r.error }
  | _ :: _ :: _ =>
    let succ := successfulFiles process files
    if succ.isEmpty then
      { success := false,
        error := some (String.intercalate "; " (uploadErrors process files)) }
    else
      { success := true,
        filename := succ.head?,
        filenames := some succ,
        size := (files.head?.map process).bind FileResult.size,
        totalSize := some (totalUploadSize process files),
        fileCount := some succ.length }

/-! ## Server fetch handler (src/server.ts) -/

/-- An HTTP response, reduced to what the fetch-handler claims observe:
the status code and whether the CORS headers built by
`createCorsHeaders` are attached. -/
structure HttpResponse where
  status : Nat
  cors : Bool
deriving DecidableEq, Repr

/-- An inbound request, with the client IP already extracted
(`getClientIP`). -/
structure HttpRequest where
  method : String
  pathname : String
  clientIP : String
deriving DecidableEq, Repr

/-- Rate-limiter configuration plus state, present only when
`options.rateLimit` is configured (`createRateLimiter`). -/
structure LimiterBox where
  maxRequests : Nat
  windowMs : Int
  requests : List (String × RateLimitEntry)
deriving DecidableEq, Repr

/-- Function `checkRequestAccess` from src/server.ts (the Access Guard): the IP
allow-list check (403) runs first, then the rate limiter (429).  Returns
`none` when the request is allowed, and the updated limiter state. -/
def checkRequestAccess (allowIps : List String) (limiter : Option LimiterBox)
    (now : Int) (req : HttpRequest) : Option HttpResponse × Option LimiterBox :=
  if !allowIps.isEmpty && !isIPAllowed req.clientIP allowIps then
    (some ⟨403, true⟩, limiter)
  else
    match limiter with
    | none => (none, none)
    | some l =>
      let r := rateCheck l.maxRequests l.windowMs l.requests now req.clientIP
      if r.1 then (none, some { l with requests := r.2 })
      else (some ⟨429, true⟩, some { l with requests := r.2 })

/-- The fetch handler from src/server.ts: custom-path redirect, prefix
stripping, the OPTIONS short-circuit, the Access Guard, and finally the
router (abstracted as `route`).  Returns the response together with the
limiter state after the request. -/
def fetchHandler (customPath : String) (allowIps : List String)
    (limiter : Option LimiterBox) (now : Int)
    (route : HttpRequest → HttpResponse) (req : HttpRequest) :
    HttpResponse × Option LimiterBox :=
  if customPath ≠ "/" ∧ req.pathname = customPath then (⟨301, false⟩, limiter)
  else
    let pathname2 :=
      if customPath ≠ "/" ∧ strStartsWith req.pathname customPath then
        let stripped : String := ⟨req.pathname.data.drop customPath.data.length⟩
        if stripped.isEmpty then "/" else stripped
      else req.pathname
    if req.method = "OPTIONS" then (⟨204, true⟩, limiter)
    else
      match checkRequestAccess allowIps limiter now req with
      | (some resp, limiter2) => (resp, limiter2)
      | (none, limiter2) => (route { req with pathname := pathname2 }, limiter2)

/-! ## Supporting lemmas: range parser -/

/-- The clamping step keeps both bounds inside `[0, fileSize-1]` and
ordered, as soon as the file is nonempty. -/
theorem clampRange_bounds (fs : Int) (hfs : 1 ≤ fs) (p : Int × Int) :
    0 ≤ (clampRange fs p).start ∧
      (clampRange fs p).start ≤ (clampRange fs p).rend ∧
      (clampRange fs p).rend < fs := by
  unfold clampRange
  dsimp only
  refine ⟨le_max_left 0 _, le_max_left _ _, ?_⟩
  have h1 : max 0 (min p.1 (fs - 1)) ≤ fs - 1 :=
    max_le (by omega) (min_le_right _ _)
  have h2 : max (max 0 (min p.1 (fs - 1))) (min p.2 (fs - 1)) ≤ fs - 1 :=
    max_le h1 (min_le_right _ _)
  omega

/-- Every accepted range specification yields clamped bounds. -/
theorem parseRangeSpec_bounds {fs : Int} (hfs : 1 ≤ fs) {part : List Char}
    {r : ByteRange} (h : parseRangeSpec fs part = some r) :
    0 ≤ r.start ∧ r.start ≤ r.rend ∧ r.rend < fs := by
  unfold parseRangeSpec at h
  rcases Option.map_eq_some'.mp h with ⟨p, _, hp⟩
  exact hp ▸ clampRange_bounds fs hfs p

/-- Inversion for a successful parse: the returned list is exactly the
surviving (well-formed) specifications, in order. -/
theorem parseRangeHeader_eq_some {h : String} {fs : Nat} {rs : List ByteRange}
    (hp : parseRangeHeader (some h) fs = some rs) :
    rs = (splitOnChar ',' (h.data.drop 6)).filterMap (parseRangeSpec (fs : Int)) := by
  simp only [parseRangeHeader] at hp
  split at hp
  · exact absurd hp (by simp)
  · split at hp
    · exact absurd hp (by simp)
    · split at hp
      · exact absurd hp (by simp)
      · exact (Option.some_inj.mp hp).symm

/-! ## Claim C2 -/

/-- C2 (counterexample): the claimed invariant `0 ≤ start ≤ end < fileSize`
fails for a file of size 0: `parseRangeHeader "bytes=0-" 0` returns the
range `{0, 0}` — a range *is* returned for an empty file, and its `end` is
not `< 0`. -/
theorem parseRangeHeader_size_zero_counterexample :
    parseRangeHeader (some "bytes=0-") 0 = some [⟨0, 0⟩] ∧
    ¬((⟨0, 0⟩ : ByteRange).rend < ((0 : Nat) : Int)) := by
  constructor
  · decide
  · decide

/-- C2 (amended): for every range header and every file size of at least
one byte, each ByteRange returned by `parseRangeHeader` satisfies
`0 ≤ start ≤ end < fileSize`, because each valid specification is clamped
into `[0, fileSize-1]` after computation.  (For `fileSize = 0` the clamp
degenerates and a `{0, 0}` range can be returned.) -/
theorem parseRangeHeader_bounds (h : Option String) (fileSize : Nat)
    (hfs : 1 ≤ fileSize) (rs : List ByteRange) (r : ByteRange)
    (hparse : parseRangeHeader h fileSize = some rs) (hmem : r ∈ rs) :
    0 ≤ r.start ∧ r.start ≤ r.rend ∧ r.rend < (fileSize : Int) := by
  match h with
  | none => exact absurd hparse (by simp [parseRangeHeader])
  | some s =>
    have hrs := parseRangeHeader_eq_some hparse
    subst hrs
    rcases List.mem_filterMap.mp hmem with ⟨part, _, hspec⟩
    exact parseRangeSpec_bounds (by exact_mod_cast hfs) hspec

/-- C2 (witness): the amended bound instantiated on
`parseRangeHeader "bytes=0-99" 1000`. -/
theorem parseRangeHeader_bounds_witness :
    0 ≤ (⟨0, 99⟩ : ByteRange).start ∧
      (⟨0, 99⟩ : ByteRange).start ≤ (⟨0, 99⟩ : ByteRange).rend ∧
      (⟨0, 99⟩ : ByteRange).rend < ((1000 : Nat) : Int) :=
  parseRangeHeader_bounds (some "bytes=0-99") 1000 (by decide) [⟨0, 99⟩] ⟨0, 99⟩
    (by decide) (by decide)

/-! ## Claim C3 -/

/-- C3: `parseRangeHeader` returns `none` for any header not starting with
`bytes=` and for any header splitting into more than `MAX_RANGES = 5`
comma-separated specifications; a malformed specification is skipped
without failing the whole header (`bytes=500-100,0-99` still yields
`{0,99}`); an empty surviving list is reported as `none` (the parser never
returns `some []`); and the concrete vectors of the spec evaluate as
stated. -/
theorem parseRangeHeader_spec :
    (∀ (h : String) (fs : Nat), strStartsWith h "bytes=" = false →
        parseRangeHeader (some h) fs = none) ∧
    (∀ (h : String) (fs : Nat),
        MAX_RANGES < (splitOnChar ',' (h.data.drop 6)).length →
        parseRangeHeader (some h) fs = none) ∧
    (∀ (h : Option String) (fs : Nat), parseRangeHeader h fs ≠ some []) ∧
    parseRangeHeader (some "bytes=500-100,0-99") 1000 = some [⟨0, 99⟩] ∧
    parseRangeHeader (some "bytes=0-99") 1000 = some [⟨0, 99⟩] ∧
    parseRangeHeader (some "bytes=-50") 1000 = some [⟨950, 999⟩] ∧
    parseRangeHeader (some "bytes=900-") 1000 = some [⟨900, 999⟩] ∧
    parseRangeHeader (some "bytes=0-1,2-3,4-5,6-7,8-9,10-11") 1000 = none ∧
    parseRangeHeader (some "bytes=500-100") 1000 = none := by
  refine ⟨?_, ?_, ?_, by decide, by decide, by decide, by decide, by decide,
    by decide⟩
  · intro h fs hsw
    simp [parseRangeHeader, hsw]
  · intro h fs hlen
    simp only [parseRangeHeader]
    split
    · rfl
    · simp [hlen]
  · intro h fs hcontra
    match h with
    | none => simp [parseRangeHeader] at hcontra
    | some s =>
      simp only [parseRangeHeader] at hcontra
      split at hcontra
      · simp at hcontra
      · split at hcontra
        · simp at hcontra
        · split at hcontra
          · simp at hcontra
          · rename_i hne
            rw [Option.some_inj] at hcontra
            rw [hcontra] at hne
            simp at hne

/-- C3 (witness): the first conjunct instantiated on a header that does
not start with `bytes=`. -/
theorem parseRangeHeader_spec_witness :
    parseRangeHeader (some "octets=0-9") 50 = none :=
  parseRangeHeader_spec.1 "octets=0-9" 50 (by decide)

/-! ## Claim C10 -/

/-- C10: when `lstat` fails (missing file, missing permission) `isSymlink`
returns `false` rather than raising, so the symlink guard lets such a path
pass; when `lstat` succeeds, its `isSymbolicLink` answer is returned. -/
theorem isSymlink_spec :
    (∀ (fs : LstatFs) (p : String), fs.lstat p = none →
        isSymlink fs p = false) ∧
    (∀ (fs : LstatFs) (p : String) (st : FileStats), fs.lstat p = some st →
        isSymlink fs p = st.isSymbolicLink) := by
  constructor
  · intro fs p h
    unfold isSymlink
    rw [h]
  · intro fs p st h
    unfold isSymlink
    rw [h]

/-- C10 (witness): a filesystem on which every `lstat` fails makes
`isSymlink` answer `false`. -/
theorem isSymlink_spec_witness : isSymlink ⟨fun _ => none⟩ "/missing" = false :=
  isSymlink_spec.1 ⟨fun _ => none⟩ "/missing" rfl

/-! ## Claim C4 -/

/-- C4: the rate limiter is a fixed-window counter.  A check is denied
exactly when a live (non-elapsed) entry has already reached the maximum;
a missing or elapsed entry is reset to `{count: 1, resetTime: now +
windowMs}` and allowed; a live entry below the maximum is incremented and
allowed.  With `max = 3, window = 60000` four checks inside the window
give `[allow, allow, allow, deny]` and the first check after the window
elapses allows again. -/
theorem rateLimiter_check_spec :
    (∀ (maxR : Nat) (w : Int) (reqs : List (String × RateLimitEntry))
        (now : Int) (id : String),
        (rateCheck maxR w reqs now id).1 = false ↔
          ∃ e, lookupEntry reqs id = some e ∧ now ≤ e.resetTime ∧
            maxR ≤ e.count) ∧
    (∀ (maxR : Nat) (w : Int) (reqs : List (String × RateLimitEntry))
        (now : Int) (id : String), lookupEntry reqs id = none →
        rateCheck maxR w reqs now id = (true, setEntry reqs id ⟨1, now + w⟩)) ∧
    (∀ (maxR : Nat) (w : Int) (reqs : List (String × RateLimitEntry))
        (now : Int) (id : String) (e : RateLimitEntry),
        lookupEntry reqs id = some e → e.resetTime < now →
        rateCheck maxR w reqs now id = (true, setEntry reqs id ⟨1, now + w⟩)) ∧
    (∀ (maxR : Nat) (w : Int) (reqs : List (String × RateLimitEntry))
        (now : Int) (id : String) (e : RateLimitEntry),
        lookupEntry reqs id = some e → now ≤ e.resetTime → e.count < maxR →
        rateCheck maxR w reqs now id =
          (true, setEntry reqs id ⟨e.count + 1, e.resetTime⟩)) ∧
    rateCheckSeq 3 60000 [0, 1, 2, 3] [] "a" = [true, true, true, false] ∧
    rateCheckSeq 3 60000 [0, 1, 2, 3, 60001] [] "a" =
      [true, true, true, false, true] := by
  refine ⟨?_, ?_, ?_, ?_, by decide, by decide⟩
  · intro maxR w reqs now id
    unfold rateCheck
    cases hE : lookupEntry reqs id with
    | none =>
      simp only []
      constructor
      · intro h; simp at h
      · rintro ⟨e, he, -⟩; simp at he
    | some e =>
      by_cases h1 : e.resetTime < now
      · simp only [if_pos h1]
        constructor
        · intro h; simp at h
        · rintro ⟨e', he', hle, -⟩
          rw [Option.some_inj] at he'
          subst he'
          omega
      · by_cases h2 : maxR ≤ e.count
        · simp only [if_neg h1, if_pos h2]
          constructor
          · intro _
            exact ⟨e, rfl, by omega, h2⟩
          · intro _
            trivial
        · simp only [if_neg h1, if_neg h2]
          constructor
          · intro h; simp at h
          · rintro ⟨e', he', -, hcnt⟩
            rw [Option.some_inj] at he'
            subst he'
            omega
  · intro maxR w reqs now id hE
    unfold rateCheck
    rw [hE]
  · intro maxR w reqs now id e hE h1
    unfold rateCheck
    rw [hE]
    simp [h1]
  · intro maxR w reqs now id e hE h1 h2
    unfold rateCheck
    rw [hE]
    simp only [if_neg (by omega : ¬e.resetTime < now),
      if_neg (by omega : ¬maxR ≤ e.count)]

/-- C4 (witness): the increment rule applied to a live entry below the
maximum. -/
theorem rateLimiter_check_spec_witness :
    rateCheck 3 60000 [("a", ⟨1, 60000⟩)] 5 "a" =
      (true, setEntry [("a", ⟨1, 60000⟩)] "a" ⟨2, 60000⟩) :=
  rateLimiter_check_spec.2.2.2.1 3 60000 [("a", ⟨1, 60000⟩)] 5 "a" ⟨1, 60000⟩
    (by decide) (by decide) (by decide)

/-! ## Claim C1 -/

/-- C1: `validatePath` accepts only when the canonical candidate equals the
canonical base or extends it by the path separator (strict descendant), and
it returns `null` whenever the canonical target escapes the base — for any
requested name and any filesystem, in particular for plain, percent-encoded
and double-percent-encoded traversal sequences (three concrete rejections
against an identity-canonicalizing filesystem). -/
theorem validatePath_containment :
    (∀ (fs : FsOracle) (req base p : String),
        validatePath fs req base = some p →
        ∃ bc, fs.realpath base = some bc ∧
          (p = bc ∨ strStartsWith p (bc ++ sep) = true)) ∧
    (∀ (fs : FsOracle) (req base d c bc : String),
        recursiveDecode req = some d →
        fs.realpath (resolve base (normalize d)) = some c →
        fs.realpath base = some bc →
        strStartsWith c (bc ++ sep) = false → c ≠ bc →
        validatePath fs req base = none) ∧
    validatePath ⟨fun s => some s⟩ "../x" "/base" = none ∧
    validatePath ⟨fun s => some s⟩ "%2e%2e%2fx" "/base" = none ∧
    validatePath ⟨fun s => some s⟩ "%252e%252e%252fx" "/base" = none := by
  refine ⟨?_, ?_, by decide, by decide, by decide⟩
  · intro fs req base p h
    unfold validatePath at h
    rcases hdec : recursiveDecode req with _ | d
    · rw [hdec] at h
      simp at h
    · rw [hdec] at h
      dsimp only at h
      rcases hc : fs.realpath (resolve base (normalize d)) with _ | c
      · rw [hc] at h
        simp at h
      · rw [hc] at h
        dsimp only at h
        rcases hbc : fs.realpath base with _ | bc
        · rw [hbc] at h
          simp at h
        · rw [hbc] at h
          dsimp only at h
          split at h
          · exact absurd h (by simp)
          · rename_i hcond
            rw [Option.some_inj] at h
            subst h
            refine ⟨bc, rfl, ?_⟩
            rcases not_and_or.mp hcond with hsw | hne
            · exact Or.inr (by simpa using hsw)
            · exact Or.inl (not_ne_iff.mp hne)
  · intro fs req base d c bc hdec hc hbc hsw hne
    unfold validatePath
    rw [hdec]
    simp only
    rw [hc, hbc]
    simp [hsw, hne]

/-- C1 (witness): the rejection direction instantiated on a traversal that
escapes the base after lexical resolution. -/
theorem validatePath_containment_witness :
    validatePath ⟨fun s => some s⟩ "a/../../x" "/base" = none :=
  validatePath_containment.2.1 ⟨fun s => some s⟩ "a/../../x" "/base"
    "a/../../x" "/x" "/base" (by decide) (by decide) (by decide) (by decide)
    (by decide)

/-! ## Supporting lemmas: percent decoding -/

/-- Reading one escape consumes exactly three characters. -/
theorem readPct_length {s : List Char} {b : Nat} {r : List Char}
    (h : readPct s = some (b, r)) : r.length + 3 = s.length := by
  unfold readPct at h
  split at h
  · rename_i h1 h2 rest
    split at h
    · cases Option.some_inj.mp h
      simp
    · exact absurd h (by simp)
  · exact absurd h (by simp)

/-- Decoding one escape sequence consumes at least three characters. -/
theorem decodeEscape_length {s : List Char} {c : Char} {r : List Char}
    (h : decodeEscape s = some (c, r)) : r.length + 3 ≤ s.length := by
  unfold decodeEscape at h
  rcases h1 : readPct s with _ | ⟨b, r1⟩
  · rw [h1] at h
    simp at h
  · rw [h1] at h
    dsimp only at h
    have e1 := readPct_length h1
    split at h
    · rw [Option.some_inj] at h
      have hr : r1 = r := congrArg Prod.snd h
      rw [hr] at e1
      omega
    · split at h
      · rcases h2 : readPct r1 with _ | ⟨b1, r2⟩
        · rw [h2] at h
          simp at h
        · rw [h2] at h
          dsimp only at h
          have e2 := readPct_length h2
          split at h
          · rw [Option.some_inj] at h
            have hr : r2 = r := congrArg Prod.snd h
            rw [hr] at e2
            omega
          · exact absurd h (by simp)
      · split at h
        · rcases h2 : readPct r1 with _ | ⟨b1, r2⟩
          · rw [h2] at h
            simp at h
          · rw [h2] at h
            dsimp only at h
            have e2 := readPct_length h2
            rcases h3 : readPct r2 with _ | ⟨b2, r3⟩
            · rw [h3] at h
              simp at h
            · rw [h3] at h
              dsimp only at h
              have e3 := readPct_length h3
              split at h
              · split at h
                · rw [Option.some_inj] at h
                  have hr : r3 = r := congrArg Prod.snd h
                  rw [hr] at e3
                  omega
                · exact absurd h (by simp)
              · exact absurd h (by simp)
        · split at h
          · rcases h2 : readPct r1 with _ | ⟨b1, r2⟩
            · rw [h2] at h
              simp at h
            · rw [h2] at h
              dsimp only at h
              have e2 := readPct_length h2
              rcases h3 : readPct r2 with _ | ⟨b2, r3⟩
              · rw [h3] at h
                simp at h
              · rw [h3] at h
                dsimp only at h
                have e3 := readPct_length h3
                rcases h4 : readPct r3 with _ | ⟨b3, r4⟩
                · rw [h4] at h
                  simp at h
                · rw [h4] at h
                  dsimp only at h
                  have e4 := readPct_length h4
                  split at h
                  · split at h
                    · rw [Option.some_inj] at h
                      have hr : r4 = r := congrArg Prod.snd h
                      rw [hr] at e4
                      omega
                    · exact absurd h (by simp)
                  · exact absurd h (by simp)
          · exact absurd h (by simp)

/-- One decoding pass never lengthens the string, and it either leaves the
string unchanged (no escape processed) or strictly shortens it. -/
theorem decodeCharsFuel_length :
    ∀ (fuel : Nat) (s d : List Char), decodeCharsFuel fuel s = some d →
      d.length ≤ s.length ∧ (d = s ∨ d.length < s.length) := by
  intro fuel
  induction fuel with
  | zero =>
    intro s d h
    match s with
    | [] =>
      cases Option.some_inj.mp h
      simp
    | c :: rest => simp [decodeCharsFuel] at h
  | succ fuel ih =>
    intro s d h
    match s with
    | [] =>
      cases Option.some_inj.mp h
      simp
    | c :: rest =>
      simp only [decodeCharsFuel] at h
      split at h
      · rcases hE : decodeEscape (c :: rest) with _ | ⟨ch, r⟩
        · rw [hE] at h
          simp at h
        · rw [hE] at h
          dsimp only at h
          rcases hT : decodeCharsFuel fuel r with _ | tail
          · rw [hT] at h
            simp at h
          · rw [hT] at h
            cases Option.some_inj.mp h
            have hlen := decodeEscape_length hE
            have hle := (ih r tail hT).1
            simp only [List.length_cons] at hlen ⊢
            exact ⟨by omega, Or.inr (by omega)⟩
      · rcases hT : decodeCharsFuel fuel rest with _ | tail
        · rw [hT] at h
          simp at h
        · rw [hT] at h
          cases Option.some_inj.mp h
          rcases ih rest tail hT with ⟨hle, heq | hlt⟩
          · subst heq
            exact ⟨le_refl _, Or.inl rfl⟩
          · exact ⟨by simp only [List.length_cons]; omega,
              Or.inr (by simp only [List.length_cons]; omega)⟩

/-- The fuel of `decodeCharsFuel` is irrelevant once it exceeds the length
of the input, so `decodeChars` is a faithful rendering of the unbounded
JavaScript recursion. -/
theorem decodeCharsFuel_congr :
    ∀ (f1 f2 : Nat) (s : List Char), s.length < f1 → s.length < f2 →
      decodeCharsFuel f1 s = decodeCharsFuel f2 s := by
  intro f1
  induction f1 with
  | zero =>
    intro f2 s h1 h2
    exact absurd h1 (Nat.not_lt_zero _)
  | succ f1 ih =>
    intro f2 s h1 h2
    match s with
    | [] =>
      cases f2 with
      | zero => exact absurd h2 (Nat.not_lt_zero _)
      | succ f2 => rfl
    | c :: rest =>
      cases f2 with
      | zero => exact absurd h2 (Nat.not_lt_zero _)
      | succ f2 =>
        simp only [decodeCharsFuel]
        split
        · rcases hE : decodeEscape (c :: rest) with _ | ⟨ch, r⟩
          · rfl
          · have hlen := decodeEscape_length hE
            simp only [List.length_cons] at h1 h2 hlen
            dsimp only
            rw [ih f2 r (by omega) (by omega)]
        · simp only [List.length_cons] at h1 h2
          rw [ih f2 rest (by omega) (by omega)]

/-- A successful `decodeURIComponent` pass either returns its input
unchanged or strictly shortens it. -/
theorem decodeChars_strict {s d : List Char} (h : decodeChars s = some d) :
    d = s ∨ d.length < s.length :=
  (decodeCharsFuel_length (s.length + 1) s d h).2

/-- The result of the decode loop is a decoding fixed point, or a string
whose further decoding fails (the fallback case). -/
theorem decodeLoopFuel_fix :
    ∀ (fuel : Nat) (dec : List Char), dec.length < fuel →
      decodeChars (decodeLoopFuel fuel dec) = some (decodeLoopFuel fuel dec) ∨
      decodeChars (decodeLoopFuel fuel dec) = none := by
  intro fuel
  induction fuel with
  | zero =>
    intro dec h
    exact absurd h (Nat.not_lt_zero _)
  | succ fuel ih =>
    intro dec h
    have hunf : decodeLoopFuel (fuel + 1) dec =
        (match decodeChars dec with
         | none => dec
         | some d2 => if d2 = dec then dec else decodeLoopFuel fuel d2) := rfl
    rcases hD : decodeChars dec with _ | d2
    · rw [hunf, hD]
      exact Or.inr hD
    · rw [hunf, hD]
      dsimp only
      split
      · rename_i heq
        rw [heq] at hD
        exact Or.inl hD
      · rename_i hne
        have hlt : d2.length < dec.length := by
          rcases decodeChars_strict hD with h1 | h1
          · exact absurd h1 hne
          · exact h1
        exact ih d2 (by omega)

/-! ## Claim C8 -/

/-- Modelled from the spec: spec §4.1 step (1) — "percent-decode the input
repeatedly until a fixed point is reached ... or decoding fails, in which
case fall back to the last successful decode" — read, as claim C8 does, as
applying the fallback even when the very first decode fails, so that
decoding never aborts validation (the fallback for an input whose first
decode fails being the input itself, the last successfully decoded form).
The shipped `recursiveDecode` instead lets the first failure escape as an
exception. -/
def recursiveDecodeSpec (str : String) : String :=
  match decodeChars str.data with
  | none => str
  | some d0 => ⟨decodeLoopFuel (d0.length + 1) d0⟩

/-- Modelled from the spec: `validate()` of spec §4.1, steps (2)-(5)
composed with the always-proceeding decode above — what `validatePath`
would compute if a failing first decode fell back and proceeded. -/
def validatePathSpec (fs : FsOracle) (requestedPath baseDirectory : String) :
    Option String :=
  let decoded := recursiveDecodeSpec requestedPath
  let normalized := normalize decoded
  let resolved := resolve baseDirectory normalized
  match fs.realpath resolved with
  | none => none
  | some canonical =>
    match fs.realpath baseDirectory with
    | none => none
    | some baseCanonical =>
      if strStartsWith canonical (baseCanonical ++ sep) = false ∧
          canonical ≠ baseCanonical then none
      else some canonical

/-- C8 (counterexample): on the malformed input `%` the very first decode
fails; `validatePath` rejects (the exception is caught by its `catch`,
yielding `null`) instead of falling back to the last successful decode and
proceeding, which would accept `/base/%` under an identity-canonicalizing
filesystem. -/
theorem validatePath_decode_counterexample :
    recursiveDecode "%" = none ∧
    validatePath ⟨fun s => some s⟩ "%" "/base" = none ∧
    validatePathSpec ⟨fun s => some s⟩ "%" "/base" = some "/base/%" := by
  refine ⟨by decide, by decide, by decide⟩

/-- C8 (amended): `validatePath` is total and never faults: a decoding
failure on the very first decode propagates out of `recursiveDecode` and
is caught by `validatePath`, which returns Rejected (`null`) — it does not
proceed with a fallback; a failure on any later decode falls back to the
last successful decode, so every successful `recursiveDecode` result is a
decoding fixed point or a string whose further decoding fails; and any
filesystem error (on the candidate or on the base directory) makes
`validatePath` return `null`. -/
theorem validatePath_decode_spec :
    (∀ s : String, decodeChars s.data = none →
        recursiveDecode s = none ∧
        ∀ (fs : FsOracle) (base : String), validatePath fs s base = none) ∧
    (∀ s d : String, recursiveDecode s = some d →
        decodeChars d.data = some d.data ∨ decodeChars d.data = none) ∧
    (∀ (fs : FsOracle) (req base d : String), recursiveDecode req = some d →
        fs.realpath (resolve base (normalize d)) = none →
        validatePath fs req base = none) ∧
    (∀ (fs : FsOracle) (req base d c : String), recursiveDecode req = some d →
        fs.realpath (resolve base (normalize d)) = some c →
        fs.realpath base = none →
        validatePath fs req base = none) := by
  refine ⟨?_, ?_, ?_, ?_⟩
  · intro s h
    have hrd : recursiveDecode s = none := by
      unfold recursiveDecode
      rw [h]
    refine ⟨hrd, ?_⟩
    intro fs base
    unfold validatePath
    rw [hrd]
  · intro s d h
    unfold recursiveDecode at h
    rcases hD : decodeChars s.data with _ | d0
    · rw [hD] at h
      simp at h
    · rw [hD] at h
      rw [Option.some_inj] at h
      subst h
      exact decodeLoopFuel_fix (d0.length + 1) d0 (by omega)
  · intro fs req base d hdec hfs
    unfold validatePath
    rw [hdec]
    dsimp only
    rw [hfs]
  · intro fs req base d c hdec hfs hbase
    unfold validatePath
    rw [hdec]
    dsimp only
    rw [hfs]
    dsimp only
    rw [hbase]

/-- C8 (witness): a double-encoded input decodes to the fixed point `A`. -/
theorem validatePath_decode_spec_witness :
    decodeChars "A".data = some "A".data ∨ decodeChars "A".data = none :=
  validatePath_decode_spec.2.1 "%2541" "A" (by decide)

/-! ## Supporting lemmas: IP allow-list -/

/-- Relational reading of the compiled wildcard pattern `^...$` in which
every `*` has been replaced by `\d{1,3}` and every other character
matches literally: each `*` consumes one to three decimal digits. -/
inductive WildMatch : List Char → List Char → Prop
  | nil : WildMatch [] []
  | lit {c : Char} {ps s : List Char} : c ≠ '*' → WildMatch ps s →
      WildMatch (c :: ps) (c :: s)
  | star {ps ds s : List Char} : ds ≠ [] → ds.length ≤ 3 →
      (∀ c ∈ ds, c.isDigit = true) → WildMatch ps s →
      WildMatch ('*' :: ps) (ds ++ s)

/-- The executable matcher decides the relational wildcard semantics. -/
theorem wildcardMatch_iff :
    ∀ (ps s : List Char), wildcardMatch ps s = true ↔ WildMatch ps s := by
  intro ps
  induction ps with
  | nil =>
    intro s
    constructor
    · intro h
      have hs : s = [] := by simpa [wildcardMatch, List.isEmpty_iff] using h
      subst hs
      exact WildMatch.nil
    · intro h
      cases h
      simp [wildcardMatch]
  | cons p ps ih =>
    intro s
    by_cases hp : p = '*'
    · subst hp
      constructor
      · intro h
        simp only [wildcardMatch, if_true, eq_self_iff_true, Bool.or_eq_true,
          Bool.and_eq_true, decide_eq_true_eq] at h
        have hstar : ∀ k : Nat, 1 ≤ k → k ≤ 3 → k ≤ s.length →
            (s.take k).all Char.isDigit = true →
            wildcardMatch ps (s.drop k) = true →
            WildMatch ('*' :: ps) s := by
          intro k hk1 hk3 hlen hdig hrest
          have htk : (s.take k).length = k := by
            rw [List.length_take]
            omega
          have := List.take_append_drop k s
          rw [← this]
          refine WildMatch.star ?_ ?_ ?_ ((ih _).mp hrest)
          · intro hnil
            rw [hnil] at htk
            simp at htk
            omega
          · omega
          · intro c hc
            exact List.all_eq_true.mp hdig c hc
        rcases h with (⟨⟨h1, h2⟩, h3⟩ | ⟨⟨h1, h2⟩, h3⟩) | ⟨⟨h1, h2⟩, h3⟩
        · exact hstar 1 (by omega) (by omega) h1 h2 h3
        · exact hstar 2 (by omega) (by omega) h1 h2 h3
        · exact hstar 3 (by omega) (by omega) h1 h2 h3
      · intro h
        cases h with
        | lit hc hw => exact absurd rfl hc
        | star hne hlen hdig hw =>
          rename_i ds s'
          simp only [wildcardMatch, if_true, eq_self_iff_true]
          have hlen1 : 1 ≤ ds.length := List.length_pos.mpr hne
          have happ : (ds ++ s').take ds.length = ds := List.take_left ds s'
          have happd : (ds ++ s').drop ds.length = s' := List.drop_left ds s'
          have hw' : wildcardMatch ps s' = true := (ih s').mpr hw
          have hall : ds.all Char.isDigit = true := List.all_eq_true.mpr hdig
          have hlapp : (ds ++ s').length = ds.length + s'.length :=
            List.length_append ds s'
          simp only [Bool.or_eq_true, Bool.and_eq_true, decide_eq_true_eq]
          rcases (by omega :
              ds.length = 1 ∨ ds.length = 2 ∨ ds.length = 3) with h1 | h2 | h3
          · refine Or.inl (Or.inl ⟨⟨?_, ?_⟩, ?_⟩)
            · omega
            · rw [← h1, happ]
              exact hall
            · rw [← h1, happd]
              exact hw'
          · refine Or.inl (Or.inr ⟨⟨?_, ?_⟩, ?_⟩)
            · omega
            · rw [← h2, happ]
              exact hall
            · rw [← h2, happd]
              exact hw'
          · refine Or.inr ⟨⟨?_, ?_⟩, ?_⟩
            · omega
            · rw [← h3, happ]
              exact hall
            · rw [← h3, happd]
              exact hw'
    · constructor
      · intro h
        simp only [wildcardMatch, if_neg hp] at h
        match s, h with
        | [], h => exact absurd h (by simp)
        | c :: cs, h =>
          rw [Bool.and_eq_true] at h
          rcases h with ⟨hpc, hw⟩
          have hpceq : p = c := by simpa using hpc
          subst hpceq
          exact WildMatch.lit hp ((ih cs).mp hw)
      · intro h
        cases h with
        | lit hc hw =>
          simp only [wildcardMatch, if_neg hp]
          simp [(ih _).mpr hw]
        | star hne hlen hdig hw => exact absurd rfl hp

/-- Semantic reading of `matchesCIDR`: the entry splits into a nonempty
network part and a nonempty prefix part, the prefix parses into `[0, 32]`,
both addresses parse as IPv4, and the prefix-masked 32-bit values agree. -/
def CIDRMatchesP (ip cidr : String) : Prop :=
  ∃ (network prefixStr : List Char) (pfx : Int) (ipInt networkInt : Nat),
    splitOnChar '/' cidr.data = [network, prefixStr] ∧
    network ≠ [] ∧ prefixStr ≠ [] ∧
    jsParseInt prefixStr = some pfx ∧ 0 ≤ pfx ∧ pfx ≤ 32 ∧
    ipv4ToInt ip = some ipInt ∧ ipv4ToInt ⟨network⟩ = some networkInt ∧
    ipInt.land (cidrMask pfx.toNat) = networkInt.land (cidrMask pfx.toNat)

/-- The executable CIDR matcher decides the semantic reading. -/
theorem matchesCIDR_iff (ip cidr : String) :
    matchesCIDR ip cidr = true ↔ CIDRMatchesP ip cidr := by
  unfold matchesCIDR CIDRMatchesP
  rcases hs : splitOnChar '/' cidr.data with _ | ⟨network, _ | ⟨prefixStr, _ | ⟨x, xs⟩⟩⟩
  · constructor
    · intro h
      simp at h
    · rintro ⟨n', p', _, _, _, heq, -⟩
      simp at heq
  · constructor
    · intro h
      simp at h
    · rintro ⟨n', p', _, _, _, heq, -⟩
      simp at heq
  · constructor
    · intro h
      dsimp only at h
      by_cases hne : network = [] ∨ prefixStr = []
      · rw [if_pos hne] at h
        exact absurd h (by simp)
      · rw [if_neg hne] at h
        push_neg at hne
        rcases hP : jsParseInt prefixStr with _ | pfx
        · rw [hP] at h
          simp at h
        · rw [hP] at h
          dsimp only at h
          by_cases hb : pfx < 0 ∨ 32 < pfx
          · rw [if_pos hb] at h
            exact absurd h (by simp)
          · rw [if_neg hb] at h
            push_neg at hb
            rcases hIp : ipv4ToInt ip with _ | ipInt
            · rw [hIp] at h
              simp at h
            · rcases hNet : ipv4ToInt ⟨network⟩ with _ | netInt
              · rw [hIp, hNet] at h
                simp at h
              · rw [hIp, hNet] at h
                dsimp only at h
                exact ⟨network, prefixStr, pfx, ipInt, netInt, rfl, hne.1,
                  hne.2, hP, hb.1, hb.2, rfl, hNet, by simpa using h⟩
    · rintro ⟨n', p', pfx, ipInt, netInt, heq, hn, hp, hP, h0, h32, hIp,
        hNet, hmask⟩
      obtain ⟨rfl, rfl⟩ : network = n' ∧ prefixStr = p' := by
        simpa using heq
      dsimp only
      rw [if_neg (by push_neg; exact ⟨hn, hp⟩)]
      rw [hP]
      dsimp only
      rw [if_neg (by omega)]
      rw [hIp, hNet]
      dsimp only
      simpa using hmask
  · constructor
    · intro h
      simp at h
    · rintro ⟨n', p', _, _, _, heq, -⟩
      simp at heq

/-- Semantic reading of one allow-list entry, mirroring the loop body of
`isIPAllowed`: exact equality, else CIDR for entries containing `/` (the
`continue` makes `/`-entries never fall through to wildcards), else
wildcard for entries containing `*`. -/
def EntryMatches (clientIP entry : String) : Prop :=
  entry = clientIP ∨
  (strContains entry '/' = true ∧ CIDRMatchesP clientIP entry) ∨
  (strContains entry '/' = false ∧ strContains entry '*' = true ∧
    WildMatch entry.data clientIP.data)

/-- The executable entry matcher decides the semantic entry reading. -/
theorem entryAllows_iff (clientIP entry : String) :
    entryAllows clientIP entry = true ↔ EntryMatches clientIP entry := by
  unfold entryAllows EntryMatches
  by_cases h1 : entry = clientIP
  · simp [h1]
  · rw [if_neg h1]
    by_cases h2 : strContains entry '/' = true
    · rw [if_pos h2, matchesCIDR_iff]
      constructor
      · intro h
        exact Or.inr (Or.inl ⟨h2, h⟩)
      · rintro (h | ⟨-, h⟩ | ⟨hfalse, -, -⟩)
        · exact absurd h h1
        · exact h
        · rw [h2] at hfalse
          exact absurd hfalse (by simp)
    · rw [if_neg h2]
      have h2' : strContains entry '/' = false := by
        simpa using h2
      by_cases h3 : strContains entry '*' = true
      · rw [if_pos h3, wildcardMatch_iff]
        constructor
        · intro h
          exact Or.inr (Or.inr ⟨h2', h3, h⟩)
        · rintro (h | ⟨hc, -⟩ | ⟨-, -, h⟩)
          · exact absurd h h1
          · exact absurd hc h2
          · exact h
      · rw [if_neg h3]
        constructor
        · intro h
          simp at h
        · rintro (h | ⟨hc, -⟩ | ⟨-, hw, -⟩)
          · exact absurd h h1
          · exact absurd hc h2
          · exact absurd hw h3

/-! ## Claim C5 -/

/-- Modelled from the spec: claim C5 reads the wildcard as "each `*`
segment matches a digit sequence", with no length bound (the spec text
only says "`*` segment translated to a digit-class regex"); the shipped
regex is `\d{1,3}`.  This relation realizes that unbounded reading. -/
inductive WildMatchSeq : List Char → List Char → Prop
  | nil : WildMatchSeq [] []
  | lit {c : Char} {ps s : List Char} : c ≠ '*' → WildMatchSeq ps s →
      WildMatchSeq (c :: ps) (c :: s)
  | star {ps ds s : List Char} : ds ≠ [] → (∀ c ∈ ds, c.isDigit = true) →
      WildMatchSeq ps s → WildMatchSeq ('*' :: ps) (ds ++ s)

/-- Modelled from the spec: the per-entry match of claim C5 with the
unbounded digit-sequence wildcard. -/
def EntryMatchesSeq (clientIP entry : String) : Prop :=
  entry = clientIP ∨
  (strContains entry '/' = true ∧ CIDRMatchesP clientIP entry) ∨
  (strContains entry '/' = false ∧ strContains entry '*' = true ∧
    WildMatchSeq entry.data clientIP.data)

/-- C5 (counterexample): the claimed equivalence "allowed iff some entry
matches" fails twice: an empty allow-list allows every client although no
entry matches it, and the entry `*` does not allow the client `1234`
although `*` matches `1234` when each `*` stands for an arbitrary digit
sequence (the shipped regex is `\d{1,3}`, capped at three digits). -/
theorem isIPAllowed_counterexample :
    (isIPAllowed "10.0.0.1" [] = true ∧ ∀ e ∈ ([] : List String), False) ∧
    (isIPAllowed "1234" ["*"] = false ∧
      ∃ e ∈ ["*"], EntryMatchesSeq "1234" e) := by
  refine ⟨⟨by decide, by simp⟩, by decide, ?_⟩
  refine ⟨"*", by simp, Or.inr (Or.inr ⟨by decide, by decide, ?_⟩)⟩
  have h := @WildMatchSeq.star [] ['1', '2', '3', '4'] []
    (by simp) (by decide) WildMatchSeq.nil
  simpa using h

/-- C5 (amended): `isIPAllowed` returns true iff the allow-list is empty
or some entry matches the client IP — by exact string equality, by CIDR
membership computed via prefix-masked 32-bit integer comparison (prefix
0-32), or by wildcard where each `*` segment matches one to three decimal
digits; the three concrete vectors of the spec evaluate as stated. -/
theorem isIPAllowed_spec :
    (∀ (clientIP : String) (allowedIPs : List String),
        isIPAllowed clientIP allowedIPs = true ↔
          allowedIPs = [] ∨ ∃ e ∈ allowedIPs, EntryMatches clientIP e) ∧
    isIPAllowed "192.168.1.50" ["192.168.1.0/24"] = true ∧
    isIPAllowed "10.0.0.1" ["192.168.1.0/24"] = false ∧
    isIPAllowed "192.168.5.9" ["192.168.*.*"] = true := by
  refine ⟨?_, by decide, by decide, by decide⟩
  intro ip l
  unfold isIPAllowed
  by_cases hl : l.isEmpty = true
  · rw [if_pos hl]
    simp [List.isEmpty_iff.mp hl]
  · rw [if_neg hl]
    rw [List.any_eq_true]
    constructor
    · rintro ⟨e, he, hm⟩
      exact Or.inr ⟨e, he, (entryAllows_iff ip e).mp hm⟩
    · rintro (h | ⟨e, he, hm⟩)
      · subst h
        simp at hl
      · exact ⟨e, he, (entryAllows_iff ip e).mpr hm⟩

/-- C5 (witness): the amended equivalence applied to the first spec
vector produces the matching entry. -/
theorem isIPAllowed_spec_witness :
    ∃ e ∈ ["192.168.1.0/24"], EntryMatches "192.168.1.50" e := by
  have h := (isIPAllowed_spec.1 "192.168.1.50" ["192.168.1.0/24"]).mp
    (by decide)
  rcases h with h | h
  · exact absurd h (by simp)
  · exact h

/-! ## Supporting lemmas: upload filename handling -/

/-- Lemma: `indexOf` misses characters that are not present. -/
theorem idxOf_not_mem {c : Char} {l : List Char} (h : ¬c ∈ l) :
    idxOf c l = none := by
  induction l with
  | nil => rfl
  | cons a rest ih =>
    have ha : ¬a = c := by
      intro hac
      exact h (by rw [hac]; exact List.mem_cons_self c rest)
    have hrest : ¬c ∈ rest := fun hm => h (List.mem_cons_of_mem a hm)
    simp [idxOf, ha, ih hrest]

/-- Lemma: `indexOf` finds a final occurrence after a prefix free of it. -/
theorem idxOf_append_last {c : Char} {l : List Char} (h : ¬c ∈ l) :
    idxOf c (l ++ [c]) = some l.length := by
  induction l with
  | nil => simp [idxOf]
  | cons a rest ih =>
    have ha : ¬a = c := by
      intro hac
      exact h (by rw [hac]; exact List.mem_cons_self c rest)
    have hrest : ¬c ∈ rest := fun hm => h (List.mem_cons_of_mem a hm)
    simp [idxOf, ha, ih hrest]

/-! ## Claim C6 -/

/-- C6: collision suffixes are inserted before the extension, and a
leading dot does not start an extension: for any dotfile (leading dot,
no other dot) the extension is empty and candidate `k` is the filename
with `_k` appended — in particular `.gitignore` yields `.gitignore_k`,
never `_k.gitignore`; an ordinary name `a.txt` yields `a_1.txt`. -/
theorem uploadCollisionName_spec :
    (∀ (f : String) (k : Nat), f.data.head? = some '.' →
        '.' ∉ f.data.tail →
        extractFileExtension f = ("", f) ∧
        collisionName f k = f ++ "_" ++ toString k) ∧
    (∀ k : Nat, collisionName ".gitignore" k = ".gitignore_" ++ toString k) ∧
    (∀ k : Nat,
        collisionName ".gitignore" k ≠ "_" ++ toString k ++ ".gitignore") ∧
    collisionName "a.txt" 1 = "a_1.txt" ∧
    collisionName ".gitignore" 1 = ".gitignore_1" := by
  have hmain : ∀ (f : String) (k : Nat), f.data.head? = some '.' →
      '.' ∉ f.data.tail →
      extractFileExtension f = ("", f) ∧
      collisionName f k = f ++ "_" ++ toString k := by
    intro f k hhead htail
    obtain ⟨l⟩ := f
    rcases l with _ | ⟨c, rest⟩
    · exact absurd hhead (by simp)
    · obtain rfl : c = '.' := by simpa using hhead
      have htail' : '.' ∉ rest := by simpa using htail
      have hcontains : strContains ⟨'.' :: rest⟩ '.' = true := by
        simp [strContains]
      have hrev : ('.' :: rest).reverse = rest.reverse ++ ['.'] := by
        simp
      have hidx : idxOf '.' (('.' :: rest) : List Char).reverse =
          some rest.length := by
        rw [hrev, idxOf_append_last (by simpa using htail')]
        simp
      have hext : extractFileExtension ⟨'.' :: rest⟩ = ("", ⟨'.' :: rest⟩) := by
        unfold extractFileExtension
        rw [if_pos hcontains]
        rw [hidx]
        have hlen : (⟨'.' :: rest⟩ : String).data.length - 1 - rest.length
            = 0 := by
          simp
        dsimp only
        rw [hlen]
        simp
      refine ⟨hext, ?_⟩
      unfold collisionName
      rw [hext]
      simp
  refine ⟨hmain, ?_, ?_, by decide, by decide⟩
  · intro k
    have h := (hmain ".gitignore" k (by decide) (by decide)).2
    rw [h]
    rw [show (".gitignore" ++ "_" : String) = ".gitignore_" from by decide]
  · intro k
    have h := (hmain ".gitignore" k (by decide) (by decide)).2
    rw [h, show (".gitignore" ++ "_" : String) = ".gitignore_" from by decide]
    intro heq
    have hd := congrArg String.data heq
    rw [String.data_append, String.data_append, String.data_append] at hd
    have h1 : (".gitignore_" : String).data =
        '.' :: ('g' :: 'i' :: 't' :: 'i' :: 'g' :: 'n' :: 'o' :: 'r' :: 'e'
          :: '_' :: []) := by decide
    have h2 : ("_" : String).data = ['_'] := by decide
    rw [h1, h2] at hd
    simp at hd

/-- C6 (witness): the dotfile rule applied to `.npmrc` with counter 2. -/
theorem uploadCollisionName_spec_witness :
    extractFileExtension ".npmrc" = ("", ".npmrc") ∧
    collisionName ".npmrc" 2 = ".npmrc" ++ "_" ++ toString 2 :=
  uploadCollisionName_spec.1 ".npmrc" 2 (by decide) (by decide)

/-! ## Supporting lemmas: upload batch aggregation -/

/-- With well-formed per-file results (a success always carries a nonempty
filename), the collected successful-file list is empty exactly when every
part failed. -/
theorem successfulFiles_eq_nil_iff (process : UploadFile → FileResult)
    (files : List UploadFile)
    (hname : ∀ f ∈ files, (process f).success = true →
      strTruthy (process f).filename = true) :
    successfulFiles process files = [] ↔
      ∀ f ∈ files, (process f).success = false := by
  rw [successfulFiles, List.filterMap_eq_nil_iff]
  constructor
  · intro h f hf
    cases hsucc : (process f).success
    · rfl
    · have ht := hname f hf hsucc
      have hg := h f hf
      dsimp only at hg
      rw [hsucc, ht] at hg
      simp at hg
      rw [hg] at ht
      simp [strTruthy] at ht
  · intro h f hf
    simp [h f hf]

/-! ## Claim C7 -/

/-- C7 (counterexample): in a two-file batch where the first part fails
with an error and the second succeeds, the outcome has `success = true`
but carries no error at all — the failed part's error is not reported. -/
theorem handleUpload_batch_counterexample :
    (handleUpload
        (fun f => if f.name = "big.bin" then
          ⟨false, none, none, some "File big.bin exceeds maximum size"⟩
        else ⟨true, some f.name, some 3, none⟩)
        [⟨"big.bin"⟩, ⟨"ok.txt"⟩]).success = true ∧
    ((fun (f : UploadFile) => if f.name = "big.bin" then
          (⟨false, none, none, some "File big.bin exceeds maximum size"⟩ : FileResult)
        else ⟨true, some f.name, some 3, none⟩) ⟨"big.bin"⟩).success = false ∧
    (handleUpload
        (fun f => if f.name = "big.bin" then
          ⟨false, none, none, some "File big.bin exceeds maximum size"⟩
        else ⟨true, some f.name, some 3, none⟩)
        [⟨"big.bin"⟩, ⟨"ok.txt"⟩]).error = none := by
  refine ⟨by decide, by decide, by decide⟩

/-- C7 (amended): each file part is processed independently and the batch
outcome has `success = true` iff at least one part succeeded; but per-file
errors are only reported when no part succeeds (for a single part its own
error is returned; for two or more failing parts the errors are joined
with `"; "`); when at least one part succeeds the errors of the failed
parts are omitted from the outcome. -/
theorem handleUpload_batch_spec :
    ∀ (process : UploadFile → FileResult) (files : List UploadFile),
      (∀ f ∈ files, (process f).success = true →
        strTruthy (process f).filename = true) →
      (∀ f ∈ files, (process f).success = true → (process f).error = none) →
      ((handleUpload process files).success = true ↔
        ∃ f ∈ files, (process f).success = true) ∧
      ((∃ f ∈ files, (process f).success = true) →
        (handleUpload process files).error = none) ∧
      (∀ f0 : UploadFile, files = [f0] →
        (handleUpload process files).error = (process f0).error) ∧
      (2 ≤ files.length → (∀ f ∈ files, (process f).success = false) →
        (handleUpload process files).error =
          some (String.intercalate "; " (uploadErrors process files))) := by
  intro process files hname herr
  match files with
  | [] =>
    refine ⟨?_, ?_, ?_, ?_⟩
    · simp [handleUpload]
    · rintro ⟨f, hf, -⟩
      simp at hf
    · intro f0 h0
      simp at h0
    · intro hlen
      simp at hlen
  | [f] =>
    refine ⟨?_, ?_, ?_, ?_⟩
    · simp [handleUpload]
    · rintro ⟨g, hg, hs⟩
      have hgf : g = f := by simpa using hg
      subst hgf
      show (process g).error = none
      exact herr g (by simp) hs
    · intro f0 h0
      have hf0 : f = f0 := by simpa using h0
      subst hf0
      rfl
    · intro hlen
      simp at hlen
  | f1 :: f2 :: rest =>
    have hiff := successfulFiles_eq_nil_iff process (f1 :: f2 :: rest) hname
    by_cases hS : successfulFiles process (f1 :: f2 :: rest) = []
    · have hall := hiff.mp hS
      have hres : handleUpload process (f1 :: f2 :: rest) =
          { success := false,
            error := some (String.intercalate "; "
              (uploadErrors process (f1 :: f2 :: rest))) } := by
        simp [handleUpload, hS]
      refine ⟨?_, ?_, ?_, ?_⟩
      · rw [hres]
        constructor
        · intro hfalse
          simp at hfalse
        · rintro ⟨f, hf, hs⟩
          rw [hall f hf] at hs
          simp at hs
      · rintro ⟨f, hf, hs⟩
        rw [hall f hf] at hs
        simp at hs
      · intro f0 h0
        simp at h0
      · intro _ _
        rw [hres]
    · have hres : handleUpload process (f1 :: f2 :: rest) =
          { success := true,
            filename := (successfulFiles process (f1 :: f2 :: rest)).head?,
            filenames := some (successfulFiles process (f1 :: f2 :: rest)),
            size := ((f1 :: f2 :: rest).head?.map process).bind
              FileResult.size,
            totalSize := some (totalUploadSize process (f1 :: f2 :: rest)),
            fileCount :=
              some (successfulFiles process (f1 :: f2 :: rest)).length } := by
        simp [handleUpload, hS]
      refine ⟨?_, ?_, ?_, ?_⟩
      · rw [hres]
        constructor
        · intro _
          by_contra hno
          push_neg at hno
          refine hS (hiff.mpr ?_)
          intro f hf
          have := hno f hf
          cases hsucc : (process f).success
          · rfl
          · exact absurd hsucc this
        · intro _
          rfl
      · intro _
        rw [hres]
      · intro f0 h0
        simp at h0
      · intro _ hall
        exact absurd (hiff.mpr hall) hS

/-- C7 (witness): the amended statement applied to a concrete all-success
two-file batch. -/
theorem handleUpload_batch_spec_witness :
    ((handleUpload (fun f => ⟨true, some f.name, some 1, none⟩)
        [⟨"a"⟩, ⟨"b"⟩]).success = true ↔
      ∃ f ∈ [(⟨"a"⟩ : UploadFile), ⟨"b"⟩],
        ((fun (f : UploadFile) =>
          (⟨true, some f.name, some 1, none⟩ : FileResult)) f).success =
          true) ∧
    ((∃ f ∈ [(⟨"a"⟩ : UploadFile), ⟨"b"⟩],
        ((fun (f : UploadFile) =>
          (⟨true, some f.name, some 1, none⟩ : FileResult)) f).success =
          true) →
      (handleUpload (fun f => ⟨true, some f.name, some 1, none⟩)
        [⟨"a"⟩, ⟨"b"⟩]).error = none) ∧
    (∀ f0 : UploadFile, [(⟨"a"⟩ : UploadFile), ⟨"b"⟩] = [f0] →
      (handleUpload (fun f => ⟨true, some f.name, some 1, none⟩)
        [⟨"a"⟩, ⟨"b"⟩]).error =
        ((fun (f : UploadFile) =>
          (⟨true, some f.name, some 1, none⟩ : FileResult)) f0).error) ∧
    (2 ≤ [(⟨"a"⟩ : UploadFile), ⟨"b"⟩].length →
      (∀ f ∈ [(⟨"a"⟩ : UploadFile), ⟨"b"⟩],
        ((fun (f : UploadFile) =>
          (⟨true, some f.name, some 1, none⟩ : FileResult)) f).success =
          false) →
      (handleUpload (fun f => ⟨true, some f.name, some 1, none⟩)
        [⟨"a"⟩, ⟨"b"⟩]).error =
        some (String.intercalate "; "
          (uploadErrors (fun f => ⟨true, some f.name, some 1, none⟩)
            [⟨"a"⟩, ⟨"b"⟩]))) :=
  handleUpload_batch_spec (fun f => ⟨true, some f.name, some 1, none⟩)
    [⟨"a"⟩, ⟨"b"⟩] (by decide) (by decide)

/-! ## Claim C9 -/

/-- C9 (counterexample): with a custom URL path prefix `/p` configured, an
OPTIONS request whose path is exactly `/p` is answered by the trailing-
slash 301 redirect, not by the 204 preflight response. -/
theorem fetchHandler_options_counterexample :
    (fetchHandler "/p" [] none 0 (fun _ => ⟨200, true⟩)
      ⟨"OPTIONS", "/p", "1.2.3.4"⟩).1.status = 301 ∧
    (fetchHandler "/p" [] none 0 (fun _ => ⟨200, true⟩)
      ⟨"OPTIONS", "/p", "1.2.3.4"⟩).1.status ≠ 204 := by
  refine ⟨by decide, by decide⟩

/-- C9 (amended): every OPTIONS request is answered before the Access
Guard runs — the response is the 204 preflight response with CORS headers,
except that when a custom URL path prefix is configured and the request
path equals it exactly (missing trailing slash) the 301 redirect fires
first; in either case the response is never the 403 of the IP allow-list
nor the 429 of the rate limiter, and the rate-limiter state is unchanged.
With the default prefix `/` the answer is always the 204. -/
theorem fetchHandler_options_spec :
    ∀ (customPath : String) (allowIps : List String)
      (limiter : Option LimiterBox) (now : Int)
      (route : HttpRequest → HttpResponse) (req : HttpRequest),
      req.method = "OPTIONS" →
      (fetchHandler customPath allowIps limiter now route req).2 = limiter ∧
      (fetchHandler customPath allowIps limiter now route req).1.status ≠ 403 ∧
      (fetchHandler customPath allowIps limiter now route req).1.status ≠ 429 ∧
      ((fetchHandler customPath allowIps limiter now route req).1 =
          ⟨204, true⟩ ∨
        (customPath ≠ "/" ∧ req.pathname = customPath ∧
          (fetchHandler customPath allowIps limiter now route req).1 =
            ⟨301, false⟩)) ∧
      (customPath = "/" →
        (fetchHandler customPath allowIps limiter now route req).1 =
          ⟨204, true⟩) := by
  intro customPath allowIps limiter now route req hm
  unfold fetchHandler
  by_cases hred : customPath ≠ "/" ∧ req.pathname = customPath
  · rw [if_pos hred]
    exact ⟨rfl, by simp, by simp, Or.inr ⟨hred.1, hred.2, rfl⟩,
      fun hc => absurd hc hred.1⟩
  · rw [if_neg hred]
    dsimp only
    rw [if_pos hm]
    exact ⟨rfl, by simp, by simp, Or.inl rfl, fun _ => rfl⟩

/-- C9 (witness): with the default prefix, a configured allow-list that
would deny the client and a rate limiter at its maximum, an OPTIONS
request is still answered 204 and the limiter state is untouched. -/
theorem fetchHandler_options_spec_witness :
    (fetchHandler "/" ["10.0.0.0/8"] (some ⟨1, 60000, [("9.9.9.9", ⟨1, 60000⟩)]⟩)
      5 (fun _ => ⟨200, true⟩) ⟨"OPTIONS", "/files", "9.9.9.9"⟩).2 =
        some ⟨1, 60000, [("9.9.9.9", ⟨1, 60000⟩)]⟩ ∧
    (fetchHandler "/" ["10.0.0.0/8"] (some ⟨1, 60000, [("9.9.9.9", ⟨1, 60000⟩)]⟩)
      5 (fun _ => ⟨200, true⟩) ⟨"OPTIONS", "/files", "9.9.9.9"⟩).1.status ≠ 403 ∧
    (fetchHandler "/" ["10.0.0.0/8"] (some ⟨1, 60000, [("9.9.9.9", ⟨1, 60000⟩)]⟩)
      5 (fun _ => ⟨200, true⟩) ⟨"OPTIONS", "/files", "9.9.9.9"⟩).1.status ≠ 429 ∧
    ((fetchHandler "/" ["10.0.0.0/8"] (some ⟨1, 60000, [("9.9.9.9", ⟨1, 60000⟩)]⟩)
      5 (fun _ => ⟨200, true⟩) ⟨"OPTIONS", "/files", "9.9.9.9"⟩).1 =
        ⟨204, true⟩ ∨
      (("/" : String) ≠ "/" ∧ ("/files" : String) = "/" ∧
        (fetchHandler "/" ["10.0.0.0/8"]
          (some ⟨1, 60000, [("9.9.9.9", ⟨1, 60000⟩)]⟩)
          5 (fun _ => ⟨200, true⟩) ⟨"OPTIONS", "/files", "9.9.9.9"⟩).1 =
          ⟨301, false⟩)) ∧
    (("/" : String) = "/" →
      (fetchHandler "/" ["10.0.0.0/8"] (some ⟨1, 60000, [("9.9.9.9", ⟨1, 60000⟩)]⟩)
        5 (fun _ => ⟨200, true⟩) ⟨"OPTIONS", "/files", "9.9.9.9"⟩).1 =
        ⟨204, true⟩) :=
  fetchHandler_options_spec "/" ["10.0.0.0/8"]
    (some ⟨1, 60000, [("9.9.9.9", ⟨1, 60000⟩)]⟩) 5 (fun _ => ⟨200, true⟩)
    ⟨"OPTIONS", "/files", "9.9.9.9"⟩ rfl

end Qrdrop
